import Mathlib

/-!
Verification development for the stratigraphic drilling-data pipeline:
run consolidation (merging), depth mapping and adjustment, confidence
scoring, and dictionary validation.  Numeric columns are embedded as
exact rationals; Python's `round(x, n)` (round half to even on the
decimal grid) is embedded as `pyRound`.
-/

/-- Python's `round` to integer: round half to even. -/
def pyRoundInt (q : ℚ) : ℤ :=
  if q - ⌊q⌋ < 1/2 then ⌊q⌋
  else if q - ⌊q⌋ > 1/2 then ⌊q⌋ + 1
  else if 2 ∣ ⌊q⌋ then ⌊q⌋ else ⌊q⌋ + 1

/-- Python's `round(x, 6)`. -/
def round6 (q : ℚ) : ℚ := (pyRoundInt (q * 1000000) : ℚ) / 1000000

/-- Python's `round(x, 2)`. -/
def round2 (q : ℚ) : ℚ := (pyRoundInt (q * 100) : ℚ) / 100

theorem pyRoundInt_abs_sub_le (q : ℚ) : |(pyRoundInt q : ℚ) - q| ≤ 1/2 := by
  have hfl : (⌊q⌋ : ℚ) ≤ q := Int.floor_le q
  have hfu : q < (⌊q⌋ : ℚ) + 1 := Int.lt_floor_add_one q
  unfold pyRoundInt
  split_ifs with h1 h2 h3 <;>
    rw [abs_sub_le_iff] <;> constructor <;> push_cast <;> linarith

theorem pyRoundInt_nonneg {q : ℚ} (h : 0 ≤ q) : 0 ≤ pyRoundInt q := by
  have hfl : (0 : ℤ) ≤ ⌊q⌋ := Int.floor_nonneg.mpr h
  unfold pyRoundInt
  split_ifs <;> omega

theorem pyRoundInt_le {q : ℚ} {N : ℤ} (h : q ≤ (N : ℚ)) : pyRoundInt q ≤ N := by
  have hfl : ⌊q⌋ ≤ N := by
    have := Int.floor_le_floor h
    simpa using this
  have hfq : (⌊q⌋ : ℚ) ≤ q := Int.floor_le q
  unfold pyRoundInt
  split_ifs with h1 h2 h3
  · exact hfl
  · -- here q - ⌊q⌋ > 1/2, so ⌊q⌋ < N
    have : (⌊q⌋ : ℚ) + 1/2 < q := by linarith
    have hlt : (⌊q⌋ : ℚ) < N := by linarith
    have : ⌊q⌋ < N := by exact_mod_cast hlt
    omega
  · exact hfl
  · have : (⌊q⌋ : ℚ) + 1/2 ≤ q := by linarith
    have hlt : (⌊q⌋ : ℚ) < N := by linarith
    have : ⌊q⌋ < N := by exact_mod_cast hlt
    omega

theorem round6_abs_sub_le (q : ℚ) : |round6 q - q| ≤ 1/2000000 := by
  have h := pyRoundInt_abs_sub_le (q * 1000000)
  have heq : round6 q - q = ((pyRoundInt (q * 1000000) : ℚ) - q * 1000000) / 1000000 := by
    unfold round6; ring
  rw [heq, abs_div, abs_of_pos (by norm_num : (0:ℚ) < 1000000)]
  rw [div_le_div_iff₀ (by norm_num) (by norm_num : (0:ℚ) < 2000000)]
  nlinarith [h]

theorem round6_nonneg {q : ℚ} (h : 0 ≤ q) : 0 ≤ round6 q := by
  unfold round6
  have : (0 : ℤ) ≤ pyRoundInt (q * 1000000) :=
    pyRoundInt_nonneg (by positivity)
  positivity

theorem round6_le_one {q : ℚ} (h : q ≤ 1) : round6 q ≤ 1 := by
  unfold round6
  have h1 : q * 1000000 ≤ ((1000000 : ℤ) : ℚ) := by push_cast; linarith
  have h2 : pyRoundInt (q * 1000000) ≤ 1000000 := pyRoundInt_le h1
  rw [div_le_one (by norm_num : (0:ℚ) < 1000000)]
  exact_mod_cast h2

/-! ## Run Consolidation Engine (`merging.py`, `process_drilling_data`) -/

/-- A row label: original sequence number (序号) or the synthetic label
`a1, a2, ...` given to a merged record. -/
inductive RowLabel where
  | orig (n : ℕ)
  | synth (n : ℕ)
deriving DecidableEq

/-- One drilling record (row of the merging engine's dataframe). -/
structure DrillRow where
  xuhao : RowLabel        -- 序号
  ruJing : ℤ              -- 入井次数 (entry count)
  qishi : ℚ               -- 起始井深 (start depth)
  jieshu : ℚ              -- 结束井深 (end depth)
  jinchi : ℚ              -- 进尺 (footage)
  chunzuan : ℚ            -- 纯钻时间 (net drilling time)
  midu : ℚ                -- 钻井液密度 (mud density)
  jixie : Option ℚ        -- 机械钻速 (mechanical rate, nullable)
  zuantou : String        -- 钻头型号 (bit type)
  changjia : String       -- 生产厂家 (bit manufacturer)
  zuanyaA : ℚ
  zuanyaB : ℚ
  zhuansuA : ℚ
  zhuansuB : ℚ
  pailiangA : ℚ
  pailiangB : ℚ
  bengyaA : ℚ
  bengyaB : ℚ
  qishiDiceng : String    -- 起始地层 (start formation)
  jieshuDiceng : String   -- 结束地层 (end formation)
  mingzhong : ℚ           -- 进尺命中率 (footage hit-rate)
deriving DecidableEq

instance : Inhabited DrillRow :=
  ⟨⟨RowLabel.orig 0, 0, 0, 0, 0, 0, 0, none, "", "", 0, 0, 0, 0, 0, 0, 0, 0, "", "", 1⟩⟩

/-- A deferred in-place overwrite recorded during the scan
(an entry of `rows_to_modify`). -/
inductive RowMod where
  | depth (k : ℕ) (v : ℚ)
  | hitRate (k : ℕ) (v : ℚ)
deriving DecidableEq

/-- Forward search for the end of the maximal consecutive entry-count
sequence containing position `j` (the `while j < len` loop). -/
def seqEnd (rows : List DrillRow) : ℕ → ℕ → ℕ
  | 0, j => j
  | fuel + 1, j =>
    if j + 1 < rows.length ∧
        (rows.getD (j+1) default).ruJing = (rows.getD j default).ruJing + 1 then
      seqEnd rows fuel (j+1)
    else j

/-- Backward search for the start of the maximal consecutive entry-count
sequence containing the given position (the `while k >= 0` loop). -/
def seqStart (rows : List DrillRow) : ℕ → ℕ
  | 0 => 0
  | k + 1 =>
    if (rows.getD k default).ruJing = (rows.getD (k+1) default).ruJing - 1 then
      seqStart rows k
    else k + 1

/-- Bit type and manufacturer identical across the range `[s, e]`. -/
def consistentDrill (rows : List DrillRow) (s e : ℕ) : Bool :=
  (List.range' s (e + 1 - s)).all fun k =>
    (rows.getD k default).zuantou == (rows.getD s default).zuantou &&
    (rows.getD k default).changjia == (rows.getD s default).changjia

/-- End depth of each row equals start depth of the next across `[s, e]`. -/
def depthContinuous (rows : List DrillRow) (s e : ℕ) : Bool :=
  (List.range' s (e - s)).all fun k =>
    (rows.getD k default).jieshu == (rows.getD (k+1) default).qishi

/-- The depth-continuous, manufacturer-matching, bit-type-mismatching
data-integrity warning situation (printed but otherwise without effect). -/
def warningCase (rows : List DrillRow) (s e : ℕ) : Bool :=
  !consistentDrill rows s e && depthContinuous rows s e &&
    ((rows.getD s default).changjia == (rows.getD (s+1) default).changjia)

/-- The Python `range(s, e+1)` index list of the merge loops. -/
def mergeRange (s e : ℕ) : List ℕ := List.range' s (e + 1 - s)

/-- Sum of a numeric column over the range `[s, e]`. -/
def sumOver (rows : List DrillRow) (f : DrillRow → ℚ) (s e : ℕ) : ℚ :=
  ((mergeRange s e).map fun k => f (rows.getD k default)).sum

/-- Total footage weight accumulated over the range (`total_weight`). -/
def totalWeight (rows : List DrillRow) (s e : ℕ) : ℚ :=
  (mergeRange s e).foldl (fun acc k => acc + (rows.getD k default).jinchi) 0

/-- Footage-weighted average of a column over `[s, e]`, falling back to
the last row's value when the total weight is zero. -/
def weightedAvg (rows : List DrillRow) (f : DrillRow → ℚ) (s e : ℕ) : ℚ :=
  let w := (mergeRange s e).foldl
    (fun acc k => acc + f (rows.getD k default) * (rows.getD k default).jinchi) 0
  if totalWeight rows s e > 0 then w / totalWeight rows s e
  else f (rows.getD e default)

/-- Footage weight restricted to rows whose mechanical rate is non-null
(`total_weight_for_speed`). -/
def speedWeight (rows : List DrillRow) (s e : ℕ) : ℚ :=
  (mergeRange s e).foldl
    (fun acc k =>
      match (rows.getD k default).jixie with
      | some _ => acc + (rows.getD k default).jinchi
      | none => acc) 0

/-- Weighted sum of the non-null mechanical rates
(`weighted_mechanical_speed` accumulator). -/
def speedSum (rows : List DrillRow) (s e : ℕ) : ℚ :=
  (mergeRange s e).foldl
    (fun acc k =>
      match (rows.getD k default).jixie with
      | some v => acc + v * (rows.getD k default).jinchi
      | none => acc) 0

/-- Merged mechanical rate: selective weighted average; when the
selective weight is not positive, the last row's value, or `0.0` when
that value is itself null. -/
def mechanicalSpeed (rows : List DrillRow) (s e : ℕ) : ℚ :=
  if speedWeight rows s e > 0 then speedSum rows s e / speedWeight rows s e
  else
    match (rows.getD e default).jixie with
    | some v => v
    | none => 0

/-- Hit-rate of one original row inside a merged run:
own footage over merged total (1.0 when the total is zero), rounded. -/
def hitRate (f total : ℚ) : ℚ :=
  round6 (if total ≠ 0 then f / total else 1)

/-- The synthesized merged record: the range's last row with label,
start depth, totals, weighted averages, start formation and hit-rate
overwritten.  `nSynth` is the number of previously synthesized rows. -/
def mergedRow (rows : List DrillRow) (s e nSynth : ℕ) : DrillRow :=
  let base := rows.getD e default
  { base with
    xuhao := RowLabel.synth (nSynth + 1)
    qishi := (rows.getD s default).qishi
    jinchi := round6 (sumOver rows DrillRow.jinchi s e)
    chunzuan := round6 (sumOver rows DrillRow.chunzuan s e)
    midu := round6 (weightedAvg rows DrillRow.midu s e)
    jixie := some (round6 (mechanicalSpeed rows s e))
    qishiDiceng := (rows.getD s default).qishiDiceng
    zuanyaA := round6 (weightedAvg rows DrillRow.zuanyaA s e)
    zuanyaB := round6 (weightedAvg rows DrillRow.zuanyaB s e)
    zhuansuA := round6 (weightedAvg rows DrillRow.zhuansuA s e)
    zhuansuB := round6 (weightedAvg rows DrillRow.zhuansuB s e)
    pailiangA := round6 (weightedAvg rows DrillRow.pailiangA s e)
    pailiangB := round6 (weightedAvg rows DrillRow.pailiangB s e)
    bengyaA := round6 (weightedAvg rows DrillRow.bengyaA s e)
    bengyaB := round6 (weightedAvg rows DrillRow.bengyaB s e)
    mingzhong := round6 1 }

/-- The in-place overwrites recorded for a merged range: each row's
footage becomes the merged total and its hit-rate its share of it. -/
def mergeMods (rows : List DrillRow) (s e : ℕ) : List RowMod :=
  (mergeRange s e).flatMap fun k =>
    [RowMod.depth k (round6 (sumOver rows DrillRow.jinchi s e)),
     RowMod.hitRate k (hitRate (rows.getD k default).jinchi
        (sumOver rows DrillRow.jinchi s e))]

/-- One iteration of the scan loop at cursor `i`: the modifications and
insertions it records, and the next cursor position. -/
def step (rows : List DrillRow) (nSynth i : ℕ) :
    List RowMod × List (ℕ × DrillRow) × ℕ :=
  if (rows.getD i default).ruJing = 1 ∧ i + 1 < rows.length ∧
      (rows.getD (i+1) default).ruJing = 1 then
    ([RowMod.hitRate i (round6 1), RowMod.hitRate (i+1) (round6 1)], [], i + 2)
  else if 1 ≤ (rows.getD i default).ruJing then
    let e := seqEnd rows rows.length i
    let s := seqStart rows i
    if s < e then
      if consistentDrill rows s e && depthContinuous rows s e then
        (mergeMods rows s e, [(e, mergedRow rows s e nSynth)], e + 1)
      else ([], [], e + 1)
    else ([], [], i + 1)
  else ([], [], i + 1)

/-- The scan loop: walks the rows and collects `rows_to_modify` and
`new_rows_to_add`; the row data itself is not mutated during the scan. -/
def scanLoop (rows : List DrillRow) :
    ℕ → ℕ → List RowMod → List (ℕ × DrillRow) →
    List RowMod × List (ℕ × DrillRow)
  | 0, _, mods, ins => (mods, ins)
  | fuel + 1, i, mods, ins =>
    if i < rows.length then
      let r := step rows ins.length i
      scanLoop rows fuel r.2.2 (mods ++ r.1) (ins ++ r.2.1)
    else (mods, ins)

/-- Initial pass adding the hit-rate column with default 1.0. -/
def prepRows (input : List DrillRow) : List DrillRow :=
  input.map fun r => { r with mingzhong := 1 }

/-- The scan over the prepared rows. -/
def scanResult (input : List DrillRow) : List RowMod × List (ℕ × DrillRow) :=
  scanLoop (prepRows input) (prepRows input).length 0 [] []

/-- Replace the element at index `k` (no-op when out of range). -/
def modifyAt (l : List DrillRow) (k : ℕ) (f : DrillRow → DrillRow) :
    List DrillRow :=
  match l, k with
  | [], _ => []
  | x :: xs, 0 => f x :: xs
  | x :: xs, k + 1 => x :: modifyAt xs k f

/-- Apply one recorded overwrite (the application loop re-rounds). -/
def applyMod (l : List DrillRow) : RowMod → List DrillRow
  | RowMod.depth k v => modifyAt l k fun r => { r with jinchi := round6 v }
  | RowMod.hitRate k v => modifyAt l k fun r => { r with mingzhong := round6 v }

/-- All overwrites applied in the order they were recorded. -/
def moddedRows (input : List DrillRow) : List DrillRow :=
  (scanResult input).1.foldl applyMod (prepRows input)

/-- Positional insertion: `concat(df.iloc[:pos], [row], df.iloc[pos:])`. -/
def insertAt (l : List DrillRow) (pos : ℕ) (r : DrillRow) : List DrillRow :=
  l.take pos ++ r :: l.drop pos

/-- Insert one pending row into a list sorted by descending anchor. -/
def insertDesc (x : ℕ × DrillRow) :
    List (ℕ × DrillRow) → List (ℕ × DrillRow)
  | [] => [x]
  | y :: ys => if y.1 ≤ x.1 then x :: y :: ys else y :: insertDesc x ys

/-- Sort the pending insertions by descending anchor position. -/
def sortDescBy : List (ℕ × DrillRow) → List (ℕ × DrillRow)
  | [] => []
  | x :: xs => insertDesc x (sortDescBy xs)

/-- Apply the pending insertions back-to-front: each synthesized row is
inserted at its anchor position plus one. -/
def applyInserts (l : List DrillRow) (ins : List (ℕ × DrillRow)) :
    List DrillRow :=
  (sortDescBy ins).foldl (fun acc p => insertAt acc (p.1 + 1) p.2) l

/-- The whole consolidation pass of `merging.py`. -/
def processDrillingData (input : List DrillRow) : List DrillRow :=
  applyInserts (moddedRows input) (scanResult input).2

/-! ## Depth Mapping & Adjustment Engine
(`stratigraphic-classification/scripts/process_drilling_data.py`) -/

/-- Replace all non-overlapping occurrences of `pat` left to right
(Python `str.replace`), on character lists with a fuel bound. -/
def replAux (pat rep : List Char) : ℕ → List Char → List Char
  | _, [] => []
  | 0, l => l
  | fuel + 1, a :: l =>
    if pat ≠ [] ∧ pat.isPrefixOf (a :: l) then
      rep ++ replAux pat rep fuel ((a :: l).drop pat.length)
    else a :: replAux pat rep fuel l

/-- Python `s.replace(pat, rep)` (for nonempty `pat`). -/
def strReplace (s pat rep : String) : String :=
  ⟨replAux pat.data rep.data s.data.length s.data⟩

/-- Python substring containment `pat in s`. -/
def strContains (s pat : String) : Bool :=
  let rec go : List Char → Bool
    | [] => pat.data.isPrefixOf []
    | a :: l => pat.data.isPrefixOf (a :: l) || go l
  go s.data

/-- Python `formation_name.replace('段', '')`. -/
def stripDuan (s : String) : String := strReplace s "段" ""

/-- Python `key.replace('亚段','').replace('1','').replace('2','').replace('3','')`. -/
def normalizeKey (s : String) : String :=
  strReplace (strReplace (strReplace (strReplace s "亚段" "") "1" "") "2" "") "3" ""

/-- One row of the Formation Reference Table (`地层分层.csv`). -/
structure FormEntry where
  name : String            -- 地层信息
  top : ℚ                  -- 地层顶深
  bot : ℚ                  -- 地层底深
deriving DecidableEq

/-- One formation dictionary entry
(`stratigraphic_depth_statistics.json`). -/
structure DictEntry where
  parent : String          -- 所属层位
  topPos : ℚ               -- 顶界所处位置（0~1）
  botPos : ℚ               -- 底界所处位置（0~1）
deriving DecidableEq

/-- Default dictionary entry used when a formation is not in the
dictionary. -/
def defaultDictEntry : DictEntry := ⟨"未知", 0, 1⟩

/-- Source `predict_formation_by_depth`: first formation whose `[top, bot)`
half-open interval contains the depth; a depth equal to the global
maximum bottom is assigned to the first formation owning that maximum;
otherwise unknown. -/
def predictFormationByDepth (fds : List FormEntry) (depth : ℚ) : String :=
  if fds = [] then "未知"
  else
    match fds.find? (fun en => en.top ≤ depth ∧ depth < en.bot) with
    | some en => en.name
    | none =>
      let maxB := (fds.map FormEntry.bot).foldl max
        ((fds.map FormEntry.bot).headD 0)
      if depth = maxB then
        match fds.find? (fun en => en.bot = maxB) with
        | some en => en.name
        | none => "未知"
      else "未知"

/-- Source `calculate_mapped_depth`: position scaled into the formation's depth
range, rounded to 2 decimals, with the suffix-normalized fallback match
when the name is not a key. -/
def calculateMappedDepth (fds : List FormEntry) (pos : ℚ)
    (formationName : String) : Option ℚ :=
  if fds = [] then none
  else
    match fds.find? (fun en => en.name = formationName) with
    | some en => some (round2 (pos * (en.bot - en.top) + en.top))
    | none =>
      let similar := fds.filter fun en =>
        strContains en.name (stripDuan formationName) ||
        normalizeKey en.name == stripDuan formationName
      match similar.head? with
      | some en => some (round2 (pos * (en.bot - en.top) + en.top))
      | none => none

/-- Source `compare_predicted_and_actual`. -/
def comparePredictedAndActual (predicted actual : String) : String :=
  if predicted = actual then "是"
  else if normalizeKey predicted = stripDuan actual then "是"
  else if normalizeKey actual = stripDuan predicted then "是"
  else "否"

/-- Source `check_depth_range`: classify an actual depth against the mapped
interval. -/
def checkDepthRange (actual : ℚ) (mappedStart mappedEnd : Option ℚ) :
    String :=
  match mappedStart, mappedEnd with
  | some x, some y =>
    if min x y ≤ actual ∧ actual ≤ max x y then "是"
    else if actual < min x y then "偏小"
    else "偏大"
  | _, _ => "无法判断"

/-- Source `adjust_depth_based_on_judgment`. -/
def adjustDepthBasedOnJudgment (judgment : String) (actual : ℚ)
    (topMapped botMapped : Option ℚ) : ℚ :=
  if judgment = "是" then actual
  else if judgment = "偏大" then
    match topMapped, botMapped with
    | some x, some y => max x y
    | _, _ => actual
  else if judgment = "偏小" then
    match topMapped, botMapped with
    | some x, some y => min x y
    | _, _ => actual
  else actual

/-- Per-row boundary adjustment: the two per-boundary adjustments
followed by the two cross-boundary midpoint corrections. -/
def adjustedBounds (startDepth endDepth : ℚ)
    (sTop sBot eTop eBot : Option ℚ) : ℚ × ℚ :=
  let js := checkDepthRange startDepth sTop sBot
  let je := checkDepthRange endDepth eTop eBot
  let a0 := adjustDepthBasedOnJudgment js startDepth sTop sBot
  let b0 := adjustDepthBasedOnJudgment je endDepth eTop eBot
  let a1 :=
    if js = "偏大" ∧ je = "偏大" then
      match sTop, sBot with
      | some x, some y => round2 ((x + y) / 2)
      | _, _ => a0
    else a0
  let b1 :=
    if js = "偏小" ∧ je = "偏小" then
      match eTop, eBot with
      | some x, some y => round2 ((x + y) / 2)
      | _, _ => b0
    else b0
  (a1, b1)

/-- A raw input row of the depth mapping stage.  The numeric depth
fields hold `none` when the CSV text does not parse as a number
(`float` would raise). -/
structure RawRow where
  xuhao : String
  qishiJingshen : Option ℚ      -- 起始井深
  jieshuJingshen : Option ℚ     -- 结束井深
  qishiDiceng : String          -- 起始地层
  jieshuDiceng : String         -- 结束地层
deriving DecidableEq

/-- An output row of the depth mapping stage. -/
structure MappedRow where
  xuhao : String
  qishi : ℚ
  jieshu : ℚ
  qishiDiceng : String
  qishiParent : String
  qishiTopPos : ℚ
  qishiTopMapped : Option ℚ
  qishiBotPos : ℚ
  qishiBotMapped : Option ℚ
  jieshuDiceng : String
  jieshuParent : String
  jieshuTopPos : ℚ
  jieshuTopMapped : Option ℚ
  jieshuBotPos : ℚ
  jieshuBotMapped : Option ℚ
  predStart : String
  startConsistency : String
  startInRange : String
  predEnd : String
  endConsistency : String
  endInRange : String
  adjustedStart : ℚ
  adjustedEnd : ℚ
deriving DecidableEq

/-- Dictionary lookup with the unknown-formation default
(`dict.get(formation, {...})`). -/
def dictGet (dict : List (String × DictEntry)) (name : String) :
    DictEntry :=
  match dict.find? (fun p => p.1 = name) with
  | some p => p.2
  | none => defaultDictEntry

/-- The derived columns computed for one row of the Depth Mapping
stage, once its numeric fields have parsed. -/
def mapRowData (fds : List FormEntry) (dict : List (String × DictEntry))
    (r : RawRow) (startDepth endDepth : ℚ) : MappedRow :=
  let predictedStart := predictFormationByDepth fds startDepth
  let predictedEnd := predictFormationByDepth fds endDepth
  let startInfo := dictGet dict r.qishiDiceng
  let endInfo := dictGet dict r.jieshuDiceng
  let sTop := calculateMappedDepth fds startInfo.topPos startInfo.parent
  let sBot := calculateMappedDepth fds startInfo.botPos startInfo.parent
  let eTop := calculateMappedDepth fds endInfo.topPos endInfo.parent
  let eBot := calculateMappedDepth fds endInfo.botPos endInfo.parent
  let startCons := comparePredictedAndActual predictedStart startInfo.parent
  let endCons := comparePredictedAndActual predictedEnd endInfo.parent
  let startRange := checkDepthRange startDepth sTop sBot
  let endRange := checkDepthRange endDepth eTop eBot
  let adj := adjustedBounds startDepth endDepth sTop sBot eTop eBot
  { xuhao := r.xuhao
    qishi := startDepth
    jieshu := endDepth
    qishiDiceng := r.qishiDiceng
    qishiParent := startInfo.parent
    qishiTopPos := startInfo.topPos
    qishiTopMapped := sTop
    qishiBotPos := startInfo.botPos
    qishiBotMapped := sBot
    jieshuDiceng := r.jieshuDiceng
    jieshuParent := endInfo.parent
    jieshuTopPos := endInfo.topPos
    jieshuTopMapped := eTop
    jieshuBotPos := endInfo.botPos
    jieshuBotMapped := eBot
    predStart := predictedStart
    startConsistency := startCons
    startInRange := startRange
    predEnd := predictedEnd
    endConsistency := endCons
    endInRange := endRange
    adjustedStart := adj.1
    adjustedEnd := adj.2 }

/-- The body of the row loop of
`StratigraphicClassifier.process_drilling_data`: `none` exactly when a
numeric field of the row fails to parse. -/
def processRow (fds : List FormEntry) (dict : List (String × DictEntry))
    (r : RawRow) : Option MappedRow := do
  let startDepth ← r.qishiJingshen
  let endDepth ← r.jieshuJingshen
  pure (mapRowData fds dict r startDepth endDepth)

/-- The whole row loop runs inside one `try`; the first failing row
aborts the stage, which then returns failure and writes no rows. -/
def mapDepthStage (fds : List FormEntry)
    (dict : List (String × DictEntry)) :
    List RawRow → Option (List MappedRow)
  | [] => some []
  | r :: rs =>
    match processRow fds dict r with
    | none => none
    | some o =>
      match mapDepthStage fds dict rs with
      | none => none
      | some os => some (o :: os)

/-! ## Confidence Scoring Engine (`analyze_confidence.py`) -/

/-- One category interval grouped from the Formation Reference Table. -/
structure Category where
  name : String
  lo : ℚ                  -- min start depth of the category
  hi : ℚ                  -- max end depth of the category
deriving DecidableEq

/-- One processed run row consumed by `calculate_confidence`. -/
structure RunRow where
  idx : String            -- 序号
  adjustedStart : ℚ       -- 调整后起始井深
  adjustedEnd : ℚ         -- 调整后结束井深
deriving DecidableEq

/-- The per-(run, category) body of `calculate_confidence`: the emitted
confidence value, or `none` when the intervals do not meet. -/
def confidenceFor (adjustedStart adjustedEnd : ℚ) (cat : Category) :
    Option ℚ :=
  let totalLength := |adjustedEnd - adjustedStart|
  let wellStart := min adjustedStart adjustedEnd
  let wellEnd := max adjustedStart adjustedEnd
  let overlapStart := max wellStart cat.lo
  let overlapEnd := min wellEnd cat.hi
  if overlapStart ≤ overlapEnd then
    some (round6 (if totalLength = 0 then 1
      else |overlapEnd - overlapStart| / totalLength))
  else none

/-- The full double loop of `calculate_confidence`: one output triple
per run row and overlapping category, runs outermost. -/
def confidenceRows (cats : List Category) (runs : List RunRow) :
    List (String × String × ℚ) :=
  runs.flatMap fun r =>
    cats.filterMap fun c =>
      (confidenceFor r.adjustedStart r.adjustedEnd c).map
        fun v => (r.idx, c.name, v)

/-! ## Dictionary Validator (`validate_dictionary.py`) -/

/-- A dictionary entry as seen by the validator: each field may be
absent, and a position field may fail to parse as a number (`none`
inside). -/
structure RawDictEntry where
  parentField : Option String
  topField : Option (Option ℚ)
  botField : Option (Option ℚ)
deriving DecidableEq

/-- A validation error. -/
inductive VError where
  | emptyDict
  | emptyData
  | emptyStrat
  | missingFormations (names : List String)
  | noParentField (formation : String)
  | parentNotFound (formation parent : String)
  | missingField (formation field : String)
  | notANumber (formation field : String)
  | outOfRange (formation field : String) (value : ℚ)
deriving DecidableEq

/-- Range check of one normalized position field. -/
def checkPosField (formation field : String) (v : Option (Option ℚ)) :
    List VError :=
  match v with
  | none => [VError.missingField formation field]
  | some none => [VError.notANumber formation field]
  | some (some x) =>
    if 0 ≤ x ∧ x ≤ 1 then [] else [VError.outOfRange formation field x]

/-- Parent-consistency check of one referenced formation (skipped when
it is not a dictionary key). -/
def consistencyErrorsFor (json : List (String × RawDictEntry))
    (strat : List String) (f : String) : List VError :=
  match json.find? (fun p => p.1 = f) with
  | none => []
  | some p =>
    match p.2.parentField with
    | none => [VError.noParentField f]
    | some parent =>
      if strat.contains parent then [] else [VError.parentNotFound f parent]

/-- Range check of one referenced formation (skipped when it is not a
dictionary key). -/
def rangeErrorsFor (json : List (String × RawDictEntry)) (f : String) :
    List VError :=
  match json.find? (fun p => p.1 = f) with
  | none => []
  | some p =>
    checkPosField f "顶界所处位置（0~1）" p.2.topField ++
    checkPosField f "底界所处位置（0~1）" p.2.botField

/-- Source `DictionaryValidator.validate_dictionary`: completeness, parent
consistency and range checks, all errors collected. -/
def validateDictionary (json : List (String × RawDictEntry))
    (datatest strat : List String) : List VError :=
  if json = [] then [VError.emptyDict]
  else if datatest = [] then [VError.emptyData]
  else if strat = [] then [VError.emptyStrat]
  else
    let keys := json.map Prod.fst
    let missing := datatest.filter fun f => ¬ keys.contains f
    let completenessErrors :=
      if missing = [] then [] else [VError.missingFormations missing]
    completenessErrors ++ datatest.flatMap (consistencyErrorsFor json strat)
      ++ datatest.flatMap (rangeErrorsFor json)

/-- Recognizer for completeness errors. -/
def isCompletenessError : VError → Bool
  | VError.missingFormations _ => true
  | _ => false

/-! ## Specification-side definitions used to state refinement claims -/

/-- Spec wording of the per-boundary adjustment rule: keep the actual
depth for in-range or indeterminate judgments, replace with the
max (resp. min) of the mapped bounds when judged high (resp. low) and
both bounds are defined, else keep the actual depth. -/
def specAdjustBoundary (judgment : String) (actual : ℚ)
    (mappedTop mappedBot : Option ℚ) : ℚ :=
  if judgment = "是" ∨ judgment = "无法判断" then actual
  else if judgment = "偏大" then
    match mappedTop, mappedBot with
    | some x, some y => max x y
    | _, _ => actual
  else if judgment = "偏小" then
    match mappedTop, mappedBot with
    | some x, some y => min x y
    | _, _ => actual
  else actual

/-- Spec wording of the whole adjustment: per-boundary rule, then the
cross-boundary correction replacing the adjusted start (resp. end)
depth by the midpoint of the start (resp. end) formation's mapped
top/bottom, rounded to 2 decimals, exactly when both boundaries are
judged high (resp. low). -/
def specAdjustedBounds (startDepth endDepth : ℚ)
    (sTop sBot eTop eBot : Option ℚ) : ℚ × ℚ :=
  let js := checkDepthRange startDepth sTop sBot
  let je := checkDepthRange endDepth eTop eBot
  let a :=
    if js = "偏大" ∧ je = "偏大" then
      match sTop, sBot with
      | some x, some y => round2 ((x + y) / 2)
      | _, _ => specAdjustBoundary js startDepth sTop sBot
    else specAdjustBoundary js startDepth sTop sBot
  let b :=
    if js = "偏小" ∧ je = "偏小" then
      match eTop, eBot with
      | some x, some y => round2 ((x + y) / 2)
      | _, _ => specAdjustBoundary je endDepth eTop eBot
    else specAdjustBoundary je endDepth eTop eBot
  (a, b)

/-- Spec-side canonical interleaving: every pending row appears
directly after the original row at its anchor index. -/
def interFrom (ins : List (ℕ × DrillRow)) : ℕ → List DrillRow →
    List DrillRow
  | _, [] => []
  | k, r :: rs =>
    r :: ((ins.filter fun p => p.1 = k).map Prod.snd ++
      interFrom ins (k + 1) rs)

/-- Spec-side result shape of the insertion pass. -/
def interleaved (l : List DrillRow) (ins : List (ℕ × DrillRow)) :
    List DrillRow :=
  interFrom ins 0 l

/-- Forgets the two fields the consolidation pass may overwrite in
place (footage and hit-rate). -/
def scrubOverwritten (r : DrillRow) : DrillRow :=
  { r with jinchi := 0, mingzhong := 0 }

/-! ## Concrete rows used by the claim theorems -/

/-- A drilling record with the given label, entry count, depths,
footage, time, density, mechanical rate and bit information. -/
def sampleRow (lbl : ℕ) (entry : ℤ) (sd ed f t m : ℚ) (js : Option ℚ)
    (zt cj : String) : DrillRow :=
  ⟨RowLabel.orig lbl, entry, sd, ed, f, t, m, js, zt, cj,
   1, 2, 3, 4, 5, 6, 7, 8, "F1", "F2", 1⟩

/-- Scenario A input: entry counts [1,2], same bit type/manufacturer,
end depth 0 = start depth 1 = 1000, footages [50,30]. -/
def scenarioARows : List DrillRow :=
  [sampleRow 1 1 900 1000 50 10 (6/5) (some 5) "T" "M",
   sampleRow 2 2 1000 1100 30 20 (3/2) (some 8) "T" "M"]

unseal Rat.add Rat.sub Rat.mul Rat.inv in
/-- C1: on two consecutive records with entry counts [1,2], identical
bit information, continuous depth at 1000 and footages [50,30], the Run
Consolidation Engine synthesizes a merged record with footage 80,
rewrites the two original hit-rates to 0.625 and 0.375, and overwrites
both original footages with the merged total 80. -/
theorem c1_scenarioA_merge :
    (processDrillingData scenarioARows).length = 3 ∧
    ((processDrillingData scenarioARows).getD 0 default).jinchi = 80 ∧
    ((processDrillingData scenarioARows).getD 0 default).mingzhong
      = 625/1000 ∧
    ((processDrillingData scenarioARows).getD 1 default).jinchi = 80 ∧
    ((processDrillingData scenarioARows).getD 1 default).mingzhong
      = 375/1000 ∧
    ((processDrillingData scenarioARows).getD 2 default).xuhao
      = RowLabel.synth 1 ∧
    ((processDrillingData scenarioARows).getD 2 default).jinchi = 80 ∧
    ((processDrillingData scenarioARows).getD 2 default).mingzhong = 1 := by
  decide

/-- Two abutting rows with entry counts [1,2] whose bit type and
manufacturer both differ and whose depths are discontinuous: the
consistency checks fail and it is not the warning case. -/
def failedChecksRows : List DrillRow :=
  [sampleRow 1 1 0 10 5 1 1 (some 1) "T1" "M1",
   sampleRow 2 2 20 30 5 1 1 (some 1) "T2" "M2"]

unseal Rat.add Rat.sub Rat.mul Rat.inv in
/-- C5 counterexample: at cursor 0 this detects the length-2 range
[0,1] with failing consistency checks (and not the warning case), does
not merge, and moves the cursor to 2 — an advance of two rows, not one
as the claim states. -/
theorem c5_counterexample :
    step failedChecksRows 0 0 = ([], [], 2) ∧
    warningCase failedChecksRows 0 1 = false ∧ (2 : ℕ) ≠ 0 + 1 := by
  decide

/-- C5 amended: when a range of length > 1 is detected whose
consistency checks fail (warning case or not), no modification or
insertion is recorded and the cursor advances to one past the end of
the detected range (`sequence_end + 1`) — which is an advance of more
than one row whenever the range extends forward past the cursor. -/
theorem c5_failed_checks_skip_range (rows : List DrillRow) (nSynth i : ℕ)
    (hcase1 : ¬((rows.getD i default).ruJing = 1 ∧ i + 1 < rows.length ∧
      (rows.getD (i+1) default).ruJing = 1))
    (hentry : 1 ≤ (rows.getD i default).ruJing)
    (hrange : seqStart rows i < seqEnd rows rows.length i)
    (hfail : ¬(consistentDrill rows (seqStart rows i)
        (seqEnd rows rows.length i) &&
      depthContinuous rows (seqStart rows i)
        (seqEnd rows rows.length i)) = true) :
    step rows nSynth i = ([], [], seqEnd rows rows.length i + 1) := by
  unfold step
  rw [if_neg hcase1, if_pos hentry]
  simp only [if_pos hrange, if_neg hfail]

/-- Three rows with entry counts [1,2,3], mismatched bit information
and discontinuous depths. -/
def failedChecks3Rows : List DrillRow :=
  [sampleRow 1 1 0 10 5 1 1 (some 1) "T1" "M1",
   sampleRow 2 2 20 30 5 1 1 (some 1) "T2" "M2",
   sampleRow 3 3 40 50 5 1 1 (some 1) "T3" "M3"]

unseal Rat.add Rat.sub Rat.mul Rat.inv in
/-- C5 witness: a concrete three-row range [0,2] with failing checks at
cursor 0; the cursor moves to 3. -/
theorem c5_witness : step failedChecks3Rows 0 0 = ([], [], 3) := by
  have h := c5_failed_checks_skip_range failedChecks3Rows 0 0 (by decide)
    (by decide) (by decide) (by decide)
  have he : seqEnd failedChecks3Rows failedChecks3Rows.length 0 = 2 := by
    decide
  rw [he] at h
  exact h

/-- A well-formed dictionary entry. -/
def goodDictEntryV : RawDictEntry := ⟨some "P1", some (some 0), some (some (1/2))⟩

/-- Dictionary with entry only for formation A段. -/
def dictOnlyA : List (String × RawDictEntry) := [("A段", goodDictEntryV)]

unseal Rat.add Rat.sub Rat.mul Rat.inv in
/-- C6 counterexample: with two referenced formations missing from the
dictionary, the validator reports a single completeness error listing
both, not one error entry per missing name. -/
theorem c6_counterexample :
    ((validateDictionary dictOnlyA ["X段", "Y段"] ["P1"]).filter
      isCompletenessError).length = 1 ∧
    (["X段", "Y段"].filter fun f =>
      ¬ (dictOnlyA.map Prod.fst).contains f).length = 2 := by
  decide

/-- No parent-consistency error is a completeness error. -/
theorem consistencyErrorsFor_not_completeness
    (json : List (String × RawDictEntry)) (strat : List String)
    (f : String) (a : VError) (ha : a ∈ consistencyErrorsFor json strat f) :
    isCompletenessError a = false := by
  unfold consistencyErrorsFor at ha
  cases hf : json.find? (fun p => p.1 = f) with
  | none => rw [hf] at ha; simp at ha
  | some p =>
    rw [hf] at ha
    dsimp only at ha
    cases hp : p.2.parentField with
    | none =>
      rw [hp] at ha
      dsimp only at ha
      simp only [List.mem_singleton] at ha
      subst ha; rfl
    | some parent =>
      rw [hp] at ha
      dsimp only at ha
      by_cases hc : strat.contains parent = true
      · rw [if_pos hc] at ha; simp at ha
      · rw [if_neg hc] at ha
        simp only [List.mem_singleton] at ha
        subst ha; rfl

/-- No field/range error is a completeness error. -/
theorem checkPosField_not_completeness (f n : String)
    (v : Option (Option ℚ)) (a : VError) (ha : a ∈ checkPosField f n v) :
    isCompletenessError a = false := by
  unfold checkPosField at ha
  rcases v with _ | v
  · simp only [List.mem_singleton] at ha; subst ha; rfl
  · rcases v with _ | x
    · simp only [List.mem_singleton] at ha; subst ha; rfl
    · dsimp only at ha
      by_cases hc : 0 ≤ x ∧ x ≤ 1
      · rw [if_pos hc] at ha; simp at ha
      · rw [if_neg hc] at ha
        simp only [List.mem_singleton] at ha
        subst ha; rfl

/-- No range error is a completeness error. -/
theorem rangeErrorsFor_not_completeness
    (json : List (String × RawDictEntry)) (f : String) (a : VError)
    (ha : a ∈ rangeErrorsFor json f) : isCompletenessError a = false := by
  unfold rangeErrorsFor at ha
  cases hf : json.find? (fun p => p.1 = f) with
  | none => rw [hf] at ha; simp at ha
  | some p =>
    rw [hf] at ha
    dsimp only at ha
    rw [List.mem_append] at ha
    rcases ha with ha | ha
    · exact checkPosField_not_completeness _ _ _ _ ha
    · exact checkPosField_not_completeness _ _ _ _ ha

/-- C6 amended: all referenced formation names missing from the
dictionary are reported together in one completeness error listing
exactly those names; in particular, with exactly one missing formation
the validator reports exactly one completeness error naming it, and
validation fails (the error list is nonempty). -/
theorem c6_missing_formations_reported (json : List (String × RawDictEntry))
    (datatest strat : List String)
    (hj : json ≠ []) (hd : datatest ≠ []) (hs : strat ≠ [])
    (hm : datatest.filter (fun f => ¬ (json.map Prod.fst).contains f) ≠ []) :
    (validateDictionary json datatest strat).filter isCompletenessError
      = [VError.missingFormations
          (datatest.filter fun f => ¬ (json.map Prod.fst).contains f)] ∧
    validateDictionary json datatest strat ≠ [] := by
  unfold validateDictionary
  rw [if_neg hj, if_neg hd, if_neg hs]
  simp only [if_neg hm]
  constructor
  · rw [List.filter_append, List.filter_append]
    have h1 : (datatest.flatMap (consistencyErrorsFor json strat)).filter
        isCompletenessError = [] := by
      rw [List.filter_eq_nil_iff]
      intro a ha
      rw [List.mem_flatMap] at ha
      obtain ⟨f, _, hmem⟩ := ha
      simp [consistencyErrorsFor_not_completeness json strat f a hmem]
    have h2 : (datatest.flatMap (rangeErrorsFor json)).filter
        isCompletenessError = [] := by
      rw [List.filter_eq_nil_iff]
      intro a ha
      rw [List.mem_flatMap] at ha
      obtain ⟨f, _, hmem⟩ := ha
      simp [rangeErrorsFor_not_completeness json f a hmem]
    rw [h1, h2]
    simp [isCompletenessError]
  · simp

unseal Rat.add Rat.sub Rat.mul Rat.inv in
/-- C6 witness (Scenario E): the dictionary misses exactly formation
X段; the validator reports exactly one completeness error naming X段
and validation fails. -/
theorem c6_witness :
    (validateDictionary dictOnlyA ["X段"] ["P1"]).filter
      isCompletenessError = [VError.missingFormations ["X段"]] ∧
    validateDictionary dictOnlyA ["X段"] ["P1"] ≠ [] := by
  have h := c6_missing_formations_reported dictOnlyA ["X段"] ["P1"]
    (by decide) (by decide) (by decide) (by decide)
  have he : (["X段"].filter fun f =>
      ¬ (dictOnlyA.map Prod.fst).contains f) = ["X段"] := by decide
  rw [he] at h
  exact h

unseal Rat.add Rat.sub Rat.mul Rat.inv in
/-- C3 counterexample: a run adjusted to [1000,1100] and a category
interval [1100,1200] meet only in the single point 1100 (zero-length
overlap), yet the engine emits a row for the pair, with confidence 0 —
which does not lie in (0,1]. -/
theorem c3_counterexample :
    confidenceRows [⟨"K", 1100, 1200⟩] [⟨"1", 1000, 1100⟩]
      = [("1", "K", 0)] ∧
    min (max (1000 : ℚ) 1100) 1200 - max (min (1000 : ℚ) 1100) 1100 = 0 := by
  decide

/-- C3 amended: the Confidence Scoring Engine emits a (run, category,
confidence) row exactly when the category interval meets the run's
adjusted interval (overlap_lo ≤ overlap_hi, a single shared point
included), and every emitted confidence value lies in [0,1]:
overlap_length / total_length rounded to 6 decimals when total_length
is nonzero, and 1.0 when total_length is zero. -/
theorem c3_confidence_emission (adjustedStart adjustedEnd : ℚ)
    (cat : Category) :
    ((confidenceFor adjustedStart adjustedEnd cat).isSome = true ↔
      max (min adjustedStart adjustedEnd) cat.lo ≤
        min (max adjustedStart adjustedEnd) cat.hi) ∧
    ∀ c : ℚ, confidenceFor adjustedStart adjustedEnd cat = some c →
      0 ≤ c ∧ c ≤ 1 := by
  constructor
  · unfold confidenceFor
    by_cases h : max (min adjustedStart adjustedEnd) cat.lo ≤
        min (max adjustedStart adjustedEnd) cat.hi
    · simp [h]
    · simp [h]
  · intro c hc
    unfold confidenceFor at hc
    by_cases h : max (min adjustedStart adjustedEnd) cat.lo ≤
        min (max adjustedStart adjustedEnd) cat.hi
    · rw [if_pos h] at hc
      rw [Option.some_inj] at hc
      subst hc
      by_cases h0 : |adjustedEnd - adjustedStart| = 0
      · rw [if_pos h0]
        constructor
        · exact round6_nonneg (by norm_num)
        · exact round6_le_one (by norm_num)
      · rw [if_neg h0]
        have htl : 0 < |adjustedEnd - adjustedStart| :=
          lt_of_le_of_ne (abs_nonneg _) (Ne.symm h0)
        have hratio0 : 0 ≤ |min (max adjustedStart adjustedEnd) cat.hi -
            max (min adjustedStart adjustedEnd) cat.lo| /
            |adjustedEnd - adjustedStart| :=
          div_nonneg (abs_nonneg _) (le_of_lt htl)
        have hub : |min (max adjustedStart adjustedEnd) cat.hi -
            max (min adjustedStart adjustedEnd) cat.lo| ≤
            |adjustedEnd - adjustedStart| := by
          rw [abs_of_nonneg (by linarith : (0:ℚ) ≤
            min (max adjustedStart adjustedEnd) cat.hi -
            max (min adjustedStart adjustedEnd) cat.lo)]
          have h1 : min (max adjustedStart adjustedEnd) cat.hi ≤
              max adjustedStart adjustedEnd := min_le_left _ _
          have h2 : min adjustedStart adjustedEnd ≤
              max (min adjustedStart adjustedEnd) cat.lo := le_max_left _ _
          have h3 : max adjustedStart adjustedEnd -
              min adjustedStart adjustedEnd = |adjustedEnd - adjustedStart| := by
            rcases le_total adjustedStart adjustedEnd with hle | hle
            · rw [max_eq_right hle, min_eq_left hle,
                abs_of_nonneg (by linarith)]
            · rw [max_eq_left hle, min_eq_right hle,
                abs_of_nonpos (by linarith)]
              ring
          linarith
        have hratio1 : |min (max adjustedStart adjustedEnd) cat.hi -
            max (min adjustedStart adjustedEnd) cat.lo| /
            |adjustedEnd - adjustedStart| ≤ 1 := by
          rw [div_le_one htl]
          exact hub
        exact ⟨round6_nonneg hratio0, round6_le_one hratio1⟩
    · rw [if_neg h] at hc
      exact Option.noConfusion hc

unseal Rat.add Rat.sub Rat.mul Rat.inv in
/-- C3 witness (Scenario D): run [1050,1150] against category interval
[1000,1100] emits confidence 0.5, which lies in [0,1]. -/
theorem c3_witness : 0 ≤ (1/2 : ℚ) ∧ (1/2 : ℚ) ≤ 1 :=
  (c3_confidence_emission 1050 1150 ⟨"D", 1000, 1100⟩).2 (1/2) (by decide)

/-- Folding an accumulated sum equals summing the mapped list. -/
theorem foldl_add_eq_sum (f : ℕ → ℚ) :
    ∀ (l : List ℕ) (acc : ℚ),
      l.foldl (fun a k => a + f k) acc = acc + (l.map f).sum := by
  intro l
  induction l with
  | nil => intro acc; simp
  | cons x xs ih =>
    intro acc
    simp only [List.foldl_cons, List.map_cons, List.sum_cons]
    rw [ih]
    ring

/-- Folding a selectively accumulated sum equals summing over the
filtered list. -/
theorem foldl_select_eq_filter_sum (sel : ℕ → Option ℚ) (f : ℕ → ℚ) :
    ∀ (l : List ℕ) (acc : ℚ),
      l.foldl (fun a k =>
        match sel k with
        | some _ => a + f k
        | none => a) acc =
      acc + ((l.filter fun k => (sel k).isSome).map f).sum := by
  intro l
  induction l with
  | nil => intro acc; simp
  | cons x xs ih =>
    intro acc
    simp only [List.foldl_cons, List.filter_cons]
    cases hx : sel x with
    | none => simp only [hx, Option.isSome_none, Bool.false_eq_true,
        if_false, ih]
    | some v =>
      simp only [hx, Option.isSome_some, if_true, List.map_cons,
        List.sum_cons, ih]
      ring

/-- Folding a selectively accumulated weighted sum equals summing the
unwrapped values over the filtered list. -/
theorem foldl_select_mul_eq_filter_sum (sel : ℕ → Option ℚ) (w : ℕ → ℚ) :
    ∀ (l : List ℕ) (acc : ℚ),
      l.foldl (fun a k =>
        match sel k with
        | some v => a + v * w k
        | none => a) acc =
      acc + ((l.filter fun k => (sel k).isSome).map
        fun k => (sel k).getD 0 * w k).sum := by
  intro l
  induction l with
  | nil => intro acc; simp
  | cons x xs ih =>
    intro acc
    simp only [List.foldl_cons, List.filter_cons]
    cases hx : sel x with
    | none => simp only [hx, Option.isSome_none, Bool.false_eq_true,
        if_false, ih]
    | some v =>
      simp only [hx, Option.isSome_some, if_true, List.map_cons,
        List.sum_cons, ih, Option.getD_some]
      ring

/-- C9 amended: in a merge, the mud-density weighted average falls back
to the last row's value when the total footage weight is zero; the
total weight counts every row's footage while the mechanical-rate
selective weight and weighted sum count only the rows whose mechanical
rate is non-null; and when the selective weight is not positive the
fallback is the last row's mechanical rate, or 0.0 when that rate is
itself null. -/
theorem c9_merge_averages (rows : List DrillRow) (s e : ℕ) :
    (totalWeight rows s e = 0 →
      weightedAvg rows DrillRow.midu s e = (rows.getD e default).midu) ∧
    totalWeight rows s e = sumOver rows DrillRow.jinchi s e ∧
    speedWeight rows s e =
      (((mergeRange s e).filter fun k =>
          ((rows.getD k default).jixie).isSome).map
        fun k => (rows.getD k default).jinchi).sum ∧
    speedSum rows s e =
      (((mergeRange s e).filter fun k =>
          ((rows.getD k default).jixie).isSome).map
        fun k => ((rows.getD k default).jixie).getD 0 *
          (rows.getD k default).jinchi).sum ∧
    (¬ 0 < speedWeight rows s e →
      mechanicalSpeed rows s e =
        match (rows.getD e default).jixie with
        | some v => v
        | none => 0) ∧
    (0 < speedWeight rows s e →
      mechanicalSpeed rows s e = speedSum rows s e / speedWeight rows s e) := by
  refine ⟨?_, ?_, ?_, ?_, ?_, ?_⟩
  · intro h0
    unfold weightedAvg
    rw [if_neg (by rw [h0]; exact lt_irrefl 0)]
  · unfold totalWeight sumOver
    rw [foldl_add_eq_sum (fun k => (rows.getD k default).jinchi)
      (mergeRange s e) 0]
    ring
  · unfold speedWeight
    rw [foldl_select_eq_filter_sum (fun k => (rows.getD k default).jixie)
      (fun k => (rows.getD k default).jinchi) (mergeRange s e) 0]
    ring
  · unfold speedSum
    rw [foldl_select_mul_eq_filter_sum
      (fun k => (rows.getD k default).jixie)
      (fun k => (rows.getD k default).jinchi) (mergeRange s e) 0]
    ring
  · intro h
    unfold mechanicalSpeed
    rw [if_neg h]
  · intro h
    unfold mechanicalSpeed
    rw [if_pos h]

/-- A mergeable range whose mechanical rates are all null. -/
def allNullSpeedRows : List DrillRow :=
  [sampleRow 1 1 0 10 5 1 1 none "T" "M",
   sampleRow 2 2 10 20 5 1 1 none "T" "M"]

unseal Rat.add Rat.sub Rat.mul Rat.inv in
/-- C9 counterexample: when every mechanical rate in the range is null,
the code falls back to the constant 0.0, not to the last row's value —
the last row's mechanical rate is null, yet the synthesized record
carries mechanical rate 0. -/
theorem c9_counterexample :
    mechanicalSpeed allNullSpeedRows 0 1 = 0 ∧
    (allNullSpeedRows.getD 1 default).jixie = none ∧
    (mergedRow allNullSpeedRows 0 1 0).jixie = some 0 ∧
    some (0 : ℚ) ≠ (none : Option ℚ) := by
  decide

/-- Rows with zero footage and null mechanical rates, so that both the
total weight and the selective weight are zero. -/
def zeroWeightRows : List DrillRow :=
  [sampleRow 1 1 0 10 0 1 1 none "T" "M",
   sampleRow 2 2 10 20 0 1 1 none "T" "M"]

unseal Rat.add Rat.sub Rat.mul Rat.inv in
/-- C9 witness: on a concrete range with zero total weight the density
average equals the last row's density, and with all mechanical rates
null the mechanical-rate fallback value is 0. -/
theorem c9_witness :
    weightedAvg zeroWeightRows DrillRow.midu 0 1
      = (zeroWeightRows.getD 1 default).midu ∧
    mechanicalSpeed zeroWeightRows 0 1 = 0 := by
  have h := c9_merge_averages zeroWeightRows 0 1
  refine ⟨h.1 (by decide), ?_⟩
  have h5 := h.2.2.2.2.1 (by decide)
  simpa using h5

/-- Summed rounding error of the hit-rate shares of a common total. -/
theorem sum_round6_div_err (T : ℚ) :
    ∀ fs : List ℚ,
      |(fs.map fun f => round6 (f / T)).sum - fs.sum / T| ≤
        (fs.length : ℚ) * (1/2000000) := by
  intro fs
  induction fs with
  | nil => simp
  | cons f fs ih =>
    simp only [List.map_cons, List.sum_cons, List.length_cons]
    have hd : (f + fs.sum) / T = f / T + fs.sum / T := add_div f fs.sum T
    rw [hd]
    have htri : |round6 (f / T) + (fs.map fun g => round6 (g / T)).sum -
        (f / T + fs.sum / T)| ≤
        |round6 (f / T) - f / T| +
        |(fs.map fun g => round6 (g / T)).sum - fs.sum / T| := by
      have : round6 (f / T) + (fs.map fun g => round6 (g / T)).sum -
          (f / T + fs.sum / T) =
          (round6 (f / T) - f / T) +
          ((fs.map fun g => round6 (g / T)).sum - fs.sum / T) := by ring
      rw [this]
      exact abs_add _ _
    have hr := round6_abs_sub_le (f / T)
    have : ((fs.length : ℚ) + 1) * (1/2000000) =
        1/2000000 + (fs.length : ℚ) * (1/2000000) := by ring
    push_cast
    rw [this]
    linarith

/-- C7 amended: for a merged run whose original footages are all
positive (so they sum to the merged total footage, which is how the
engine computes it), the sum of the rewritten hit-rate values differs
from 1.0 by at most (number of rows) × 5·10⁻⁷ — within 1·10⁻⁶ for runs
of up to three rows, but not in general. -/
theorem c7_hit_rate_sum (fs : List ℚ) (hne : fs ≠ [])
    (hpos : ∀ f ∈ fs, 0 < f) :
    |(fs.map fun f => hitRate f fs.sum).sum - 1| ≤
      (fs.length : ℚ) * (1/2000000) := by
  have hT : 0 < fs.sum := List.sum_pos fs hpos hne
  have hT0 : fs.sum ≠ 0 := ne_of_gt hT
  have hmap : (fs.map fun f => hitRate f fs.sum) =
      fs.map fun f => round6 (f / fs.sum) := by
    apply List.map_congr_left
    intro f _
    unfold hitRate
    rw [if_pos hT0]
  rw [hmap]
  have h := sum_round6_div_err fs.sum fs
  rw [div_self hT0] at h
  exact h

/-- A five-row run with entry counts 1..5, identical bit information,
continuous depths and positive footages 14, 14, 14, 14, 9999944
(total 10⁷). -/
def fiveRowRun : List DrillRow :=
  [sampleRow 1 1 0 1 14 1 1 (some 1) "T" "M",
   sampleRow 2 2 1 2 14 1 1 (some 1) "T" "M",
   sampleRow 3 3 2 3 14 1 1 (some 1) "T" "M",
   sampleRow 4 4 3 4 14 1 1 (some 1) "T" "M",
   sampleRow 5 5 4 5 9999944 1 1 (some 1) "T" "M"]

unseal Rat.add Rat.sub Rat.mul Rat.inv in
/-- C7 counterexample: the engine merges the five-row run (original
footages positive, summing to the merged total 10⁷) and rewrites the
hit-rates to values summing to 0.999998, which differs from 1.0 by
2·10⁻⁶ > 1·10⁻⁶. -/
theorem c7_counterexample :
    (((processDrillingData fiveRowRun).take 5).map DrillRow.mingzhong).sum
      = 999998/1000000 ∧
    ¬(|(1 : ℚ) - 999998/1000000| ≤ 1/1000000) := by
  decide

unseal Rat.add Rat.sub Rat.mul Rat.inv in
/-- C7 witness: two equal positive footages give hit-rates summing
exactly to 1, within the stated bound. -/
theorem c7_witness :
    |(([1, 1] : List ℚ).map fun f =>
        hitRate f ([1, 1] : List ℚ).sum).sum - 1| ≤
      ((([1, 1] : List ℚ).length : ℚ)) * (1/2000000) :=
  c7_hit_rate_sum [1, 1] (by decide) (by decide)

/-- A raw row whose start depth fails to parse. -/
def badNumericRow : RawRow := ⟨"1", none, some 20, "F", "G"⟩

/-- A well-formed raw row. -/
def goodRawRow : RawRow := ⟨"2", some 10, some 20, "F", "G"⟩

unseal Rat.add Rat.sub Rat.mul Rat.inv in
/-- C4 counterexample: one malformed numeric field aborts the whole
Depth Mapping stage — although the second record is well-formed, the
stage produces no output rows at all. -/
theorem c4_counterexample :
    mapDepthStage [] [] [badNumericRow, goodRawRow] = none := by
  decide

/-- C4 amended: a malformed numeric field in any record makes the
Depth Mapping stage fail as a whole — the error is caught at the stage
boundary (no exception escapes, the stage reports failure) but no
output rows are produced, not even for well-formed records; when every
record parses, the stage emits exactly one output row per input row;
and an unresolvable formation-to-dictionary lookup is recovered locally
by marking the row's parent category "未知" (unknown). -/
theorem c4_stage_failure_semantics (fds : List FormEntry)
    (dict : List (String × DictEntry)) (rows : List RawRow) :
    (mapDepthStage fds dict rows = none ↔
      ∃ r ∈ rows, r.qishiJingshen = none ∨ r.jieshuJingshen = none) ∧
    (∀ outs, mapDepthStage fds dict rows = some outs →
      outs.length = rows.length) ∧
    (∀ r : RawRow, dict.find? (fun p => p.1 = r.qishiDiceng) = none →
      ∀ o, processRow fds dict r = some o → o.qishiParent = "未知") := by
  refine ⟨?_, ?_, ?_⟩
  · induction rows with
    | nil => simp [mapDepthStage]
    | cons r rs ih =>
      unfold mapDepthStage
      constructor
      · intro h
        cases hr : processRow fds dict r with
        | none =>
          refine ⟨r, List.mem_cons_self r rs, ?_⟩
          unfold processRow at hr
          cases hq : r.qishiJingshen with
          | none => exact Or.inl rfl
          | some sd =>
            rw [hq] at hr
            cases hj : r.jieshuJingshen with
            | none => exact Or.inr rfl
            | some ed => rw [hj] at hr; simp at hr
        | some o =>
          rw [hr] at h
          cases hs : mapDepthStage fds dict rs with
          | none =>
            obtain ⟨r1, hmem, hcase⟩ := ih.mp hs
            exact ⟨r1, List.mem_cons_of_mem r hmem, hcase⟩
          | some os => rw [hs] at h; simp at h
      · rintro ⟨r1, hmem, hcase⟩
        rcases List.mem_cons.mp hmem with heq | hmem
        · subst heq
          have hr : processRow fds dict r1 = none := by
            unfold processRow
            rcases hcase with hc | hc
            · rw [hc]; rfl
            · cases hq : r1.qishiJingshen with
              | none => rfl
              | some sd => rw [hc]; rfl
          rw [hr]
        · have hs : mapDepthStage fds dict rs = none :=
            ih.mpr ⟨r1, hmem, hcase⟩
          rw [hs]
          cases processRow fds dict r <;> rfl
  · induction rows with
    | nil =>
      intro outs h
      unfold mapDepthStage at h
      rw [Option.some_inj] at h
      subst h
      rfl
    | cons r rs ih =>
      intro outs h
      unfold mapDepthStage at h
      cases hr : processRow fds dict r with
      | none => rw [hr] at h; exact Option.noConfusion h
      | some o =>
        rw [hr] at h
        cases hs : mapDepthStage fds dict rs with
        | none => rw [hs] at h; exact Option.noConfusion h
        | some os =>
          rw [hs] at h
          rw [Option.some_inj] at h
          subst h
          simp [ih os hs]
  · intro r hfind o ho
    unfold processRow at ho
    cases hq : r.qishiJingshen with
    | none => rw [hq] at ho; exact Option.noConfusion ho
    | some sd =>
      rw [hq] at ho
      cases hj : r.jieshuJingshen with
      | none => rw [hj] at ho; exact Option.noConfusion ho
      | some ed =>
        rw [hj] at ho
        have ho2 : some (mapRowData fds dict r sd ed) = some o := ho
        rw [Option.some_inj] at ho2
        subst ho2
        unfold mapRowData
        simp only []
        unfold dictGet
        rw [hfind]
        rfl

/-- The output row the stage computes for `goodRawRow` against empty
reference tables. -/
def goodMappedRow : MappedRow :=
  ⟨"2", 10, 20, "F", "未知", 0, none, 1, none, "G", "未知", 0, none, 1,
   none, "未知", "是", "无法判断", "未知", "是", "无法判断", 10, 20⟩

unseal Rat.add Rat.sub Rat.mul Rat.inv in
/-- C4 witness: on a concrete malformed row the stage fails with no
output; on a concrete well-formed row it emits exactly one output row,
whose unresolvable formation lookup is recovered as the unknown
parent. -/
theorem c4_witness :
    mapDepthStage [] [] [badNumericRow] = none ∧
    ([goodMappedRow] : List MappedRow).length
      = ([goodRawRow] : List RawRow).length ∧
    goodMappedRow.qishiParent = "未知" := by
  have h1 := (c4_stage_failure_semantics [] [] [badNumericRow]).1.mpr
    ⟨badNumericRow, by decide, Or.inl rfl⟩
  have h2 := (c4_stage_failure_semantics [] [] [goodRawRow]).2.1
    [goodMappedRow] (by decide)
  have h3 := (c4_stage_failure_semantics [] [] [goodRawRow]).2.2
    goodRawRow rfl goodMappedRow (by decide)
  exact ⟨h1, h2, h3⟩

/-- The code's per-boundary adjustment agrees with the spec wording of
the rule for every judgment string. -/
theorem adjust_eq_specAdjustBoundary (j : String) (actual : ℚ)
    (t b : Option ℚ) :
    adjustDepthBasedOnJudgment j actual t b =
      specAdjustBoundary j actual t b := by
  unfold adjustDepthBasedOnJudgment specAdjustBoundary
  by_cases h1 : j = "是"
  · simp [h1]
  · by_cases h2 : j = "无法判断"
    · subst h2
      simp
    · by_cases h3 : j = "偏大"
      · simp [h1, h2, h3]
      · by_cases h4 : j = "偏小" <;> simp [h1, h2, h3, h4]

/-- C2: for every run boundary the adjusted depth equals the actual
depth when the range judgment is in-range or indeterminate, the max
(resp. min) of the mapped bounds when judged high (resp. low) with both
bounds defined, and, when both boundaries are judged high (resp. low),
the adjusted start (resp. end) depth is the midpoint of the start
(resp. end) formation's mapped top/bottom rounded to 2 decimals — i.e.
the code's adjustment equals the spec-worded adjustment. -/
theorem c2_adjustment_rule (sd ed : ℚ) (st sb et eb : Option ℚ) :
    adjustedBounds sd ed st sb et eb =
      specAdjustedBounds sd ed st sb et eb := by
  unfold adjustedBounds specAdjustedBounds
  simp only [adjust_eq_specAdjustBoundary]

theorem insertAt_length (l : List DrillRow) (p : ℕ) (r : DrillRow) :
    (insertAt l p r).length = l.length + 1 := by
  unfold insertAt
  rw [List.length_append, List.length_cons, List.length_take,
    List.length_drop]
  omega

theorem insertDesc_length (x : ℕ × DrillRow) :
    ∀ l : List (ℕ × DrillRow), (insertDesc x l).length = l.length + 1 := by
  intro l
  induction l with
  | nil => rfl
  | cons y ys ih =>
    unfold insertDesc
    by_cases h : y.1 ≤ x.1
    · rw [if_pos h]; rfl
    · rw [if_neg h]
      simp only [List.length_cons, ih]

theorem sortDescBy_length : ∀ l : List (ℕ × DrillRow),
    (sortDescBy l).length = l.length := by
  intro l
  induction l with
  | nil => rfl
  | cons x xs ih =>
    unfold sortDescBy
    rw [insertDesc_length, ih]
    rfl

theorem applyInserts_length (l : List DrillRow)
    (ins : List (ℕ × DrillRow)) :
    (applyInserts l ins).length = l.length + ins.length := by
  unfold applyInserts
  rw [← sortDescBy_length ins]
  generalize sortDescBy ins = l2
  induction l2 generalizing l with
  | nil => rfl
  | cons p ps ih =>
    simp only [List.foldl_cons, List.length_cons]
    rw [ih (insertAt l (p.1 + 1) p.2), insertAt_length]
    omega

theorem sublist_insertAt (l : List DrillRow) (p : ℕ) (r : DrillRow) :
    List.Sublist l (insertAt l p r) := by
  unfold insertAt
  conv_lhs => rw [← List.take_append_drop p l]
  exact (List.Sublist.refl _).append
    (List.sublist_cons_of_sublist r (List.Sublist.refl (l.drop p)))

theorem sublist_applyInserts (l : List DrillRow)
    (ins : List (ℕ × DrillRow)) : List.Sublist l (applyInserts l ins) := by
  unfold applyInserts
  generalize sortDescBy ins = l2
  induction l2 generalizing l with
  | nil => exact List.Sublist.refl l
  | cons p ps ih =>
    simp only [List.foldl_cons]
    exact (sublist_insertAt l (p.1 + 1) p.2).trans
      (ih (insertAt l (p.1 + 1) p.2))

theorem modifyAt_length (f : DrillRow → DrillRow) :
    ∀ (l : List DrillRow) (k : ℕ), (modifyAt l k f).length = l.length := by
  intro l
  induction l with
  | nil => intro k; rfl
  | cons x xs ih =>
    intro k
    cases k with
    | zero => rfl
    | succ k => simp only [modifyAt, List.length_cons, ih]

theorem applyMod_length (l : List DrillRow) (m : RowMod) :
    (applyMod l m).length = l.length := by
  cases m with
  | depth k v => exact modifyAt_length _ l k
  | hitRate k v => exact modifyAt_length _ l k

theorem foldl_applyMod_length (mods : List RowMod) :
    ∀ l : List DrillRow, (mods.foldl applyMod l).length = l.length := by
  induction mods with
  | nil => intro l; rfl
  | cons m ms ih =>
    intro l
    simp only [List.foldl_cons]
    rw [ih (applyMod l m), applyMod_length]

theorem modifyAt_map_eq (g : DrillRow → DrillRow)
    (f : DrillRow → DrillRow) (hgf : ∀ r, g (f r) = g r) :
    ∀ (l : List DrillRow) (k : ℕ),
      (modifyAt l k f).map g = l.map g := by
  intro l
  induction l with
  | nil => intro k; rfl
  | cons x xs ih =>
    intro k
    cases k with
    | zero => simp only [modifyAt, List.map_cons, hgf]
    | succ k => simp only [modifyAt, List.map_cons, ih]

theorem applyMod_map_scrub (l : List DrillRow) (m : RowMod) :
    (applyMod l m).map scrubOverwritten = l.map scrubOverwritten := by
  cases m with
  | depth k v =>
    exact modifyAt_map_eq scrubOverwritten
      (fun r => { r with jinchi := round6 v }) (fun r => rfl) l k
  | hitRate k v =>
    exact modifyAt_map_eq scrubOverwritten
      (fun r => { r with mingzhong := round6 v }) (fun r => rfl) l k

theorem foldl_applyMod_map_scrub (mods : List RowMod) :
    ∀ l : List DrillRow,
      (mods.foldl applyMod l).map scrubOverwritten
        = l.map scrubOverwritten := by
  induction mods with
  | nil => intro l; rfl
  | cons m ms ih =>
    intro l
    simp only [List.foldl_cons]
    rw [ih (applyMod l m), applyMod_map_scrub]

/-- C10: the consolidation pass keeps every input record exactly once
in its original relative order — the overwritten originals form a
sublist of the output of the same length as the input, equal to the
input outside the two overwritten fields — and the output length is the
input length plus the number of synthesized records. -/
theorem c10_no_deletion_no_reorder (input : List DrillRow) :
    (processDrillingData input).length
      = input.length + (scanResult input).2.length ∧
    List.Sublist (moddedRows input) (processDrillingData input) ∧
    (moddedRows input).length = input.length ∧
    (moddedRows input).map scrubOverwritten
      = input.map scrubOverwritten := by
  refine ⟨?_, ?_, ?_, ?_⟩
  · unfold processDrillingData
    rw [applyInserts_length]
    unfold moddedRows
    rw [foldl_applyMod_length]
    unfold prepRows
    rw [List.length_map]
  · exact sublist_applyInserts _ _
  · unfold moddedRows
    rw [foldl_applyMod_length]
    unfold prepRows
    rw [List.length_map]
  · unfold moddedRows
    rw [foldl_applyMod_map_scrub]
    unfold prepRows scrubOverwritten
    rw [List.map_map]
    rfl

theorem seqEnd_ge (rows : List DrillRow) :
    ∀ fuel j, j ≤ seqEnd rows fuel j := by
  intro fuel
  induction fuel with
  | zero => intro j; exact le_refl j
  | succ f ih =>
    intro j
    unfold seqEnd
    split_ifs with h
    · exact le_trans (Nat.le_succ j) (ih (j+1))
    · exact le_refl j

theorem seqEnd_lt (rows : List DrillRow) :
    ∀ fuel j, j < rows.length → seqEnd rows fuel j < rows.length := by
  intro fuel
  induction fuel with
  | zero => intro j h; exact h
  | succ f ih =>
    intro j h
    unfold seqEnd
    split_ifs with hc
    · exact ih (j+1) hc.1
    · exact h

theorem step_anchor_bounds (rows : List DrillRow) (nSynth i : ℕ)
    (h : i < rows.length) :
    i < (step rows nSynth i).2.2 ∧
    ∀ p ∈ (step rows nSynth i).2.1,
      i ≤ p.1 ∧ p.1 < (step rows nSynth i).2.2 ∧ p.1 < rows.length := by
  have hge : i ≤ seqEnd rows rows.length i := seqEnd_ge rows rows.length i
  have hlt : seqEnd rows rows.length i < rows.length :=
    seqEnd_lt rows rows.length i h
  unfold step
  dsimp only
  split_ifs with h1 h2 h3 h4 <;> dsimp only
  · exact ⟨by omega, by intro p hp; simp at hp⟩
  · refine ⟨by omega, ?_⟩
    intro p hp
    simp only [List.mem_singleton] at hp
    subst hp
    exact ⟨hge, by omega, hlt⟩
  · exact ⟨by omega, by intro p hp; simp at hp⟩
  · exact ⟨by omega, by intro p hp; simp at hp⟩
  · exact ⟨by omega, by intro p hp; simp at hp⟩

theorem step_ins_short (rows : List DrillRow) (nSynth i : ℕ) :
    (step rows nSynth i).2.1 = [] ∨
      ∃ p, (step rows nSynth i).2.1 = [p] := by
  unfold step
  dsimp only
  split_ifs <;> simp

theorem scanLoop_anchor_invariant (rows : List DrillRow) :
    ∀ (fuel i : ℕ) (mods : List RowMod) (ins : List (ℕ × DrillRow)),
      ((ins.map Prod.fst).Pairwise (· < ·)) →
      (∀ a ∈ ins.map Prod.fst, a < i ∧ a < rows.length) →
      (((scanLoop rows fuel i mods ins).2.map Prod.fst).Pairwise (· < ·)) ∧
      ∀ a ∈ (scanLoop rows fuel i mods ins).2.map Prod.fst,
        a < rows.length := by
  intro fuel
  induction fuel with
  | zero =>
    intro i mods ins hpw hbd
    exact ⟨hpw, fun a ha => (hbd a ha).2⟩
  | succ f ih =>
    intro i mods ins hpw hbd
    unfold scanLoop
    split_ifs with hi
    · have hstep := step_anchor_bounds rows ins.length i hi
      apply ih
      · rw [List.map_append]
        rw [List.pairwise_append]
        refine ⟨hpw, ?_, ?_⟩
        · rcases step_ins_short rows ins.length i with hnew | ⟨p, hnew⟩
          · rw [hnew]
            simp
          · rw [hnew]
            simp
        · intro a ha b hb
          have hai : a < i := (hbd a ha).1
          rw [List.mem_map] at hb
          obtain ⟨p, hp, hpa⟩ := hb
          subst hpa
          exact lt_of_lt_of_le hai (hstep.2 p hp).1
      · intro a ha
        rw [List.map_append, List.mem_append] at ha
        rcases ha with ha | ha
        · have := hbd a ha
          exact ⟨lt_of_lt_of_le this.1 (le_of_lt hstep.1), this.2⟩
        · rw [List.mem_map] at ha
          obtain ⟨p, hp, hpa⟩ := ha
          subst hpa
          exact ⟨(hstep.2 p hp).2.1, (hstep.2 p hp).2.2⟩
    · exact ⟨hpw, fun a ha => (hbd a ha).2⟩

theorem insertDesc_append_of_forall_gt (x : ℕ × DrillRow) :
    ∀ l : List (ℕ × DrillRow), (∀ y ∈ l, ¬ y.1 ≤ x.1) →
      insertDesc x l = l ++ [x] := by
  intro l
  induction l with
  | nil => intro _; rfl
  | cons y ys ih =>
    intro h
    unfold insertDesc
    rw [if_neg (h y (List.mem_cons_self y ys))]
    rw [ih fun z hz => h z (List.mem_cons_of_mem y hz)]
    rfl

theorem sortDescBy_eq_reverse :
    ∀ ins : List (ℕ × DrillRow),
      ((ins.map Prod.fst).Pairwise (· < ·)) →
      sortDescBy ins = ins.reverse := by
  intro ins
  induction ins with
  | nil => intro _; rfl
  | cons x xs ih =>
    intro hpw
    rw [List.map_cons, List.pairwise_cons] at hpw
    unfold sortDescBy
    rw [ih hpw.2]
    rw [insertDesc_append_of_forall_gt x xs.reverse ?_]
    · rw [List.reverse_cons]
    · intro y hy
      rw [List.mem_reverse] at hy
      have := hpw.1 y.1 (List.mem_map_of_mem Prod.fst hy)
      omega

theorem interFrom_nil_ins : ∀ (k : ℕ) (l : List DrillRow),
    interFrom [] k l = l := by
  intro k l
  induction l generalizing k with
  | nil => rfl
  | cons x xs ih =>
    unfold interFrom
    rw [List.filter_nil, List.map_nil, List.nil_append, ih (k+1)]

theorem filter_anchor_eq_nil (ins : List (ℕ × DrillRow)) (k : ℕ)
    (h : ∀ b ∈ ins.map Prod.fst, b ≠ k) :
    ins.filter (fun p => p.1 = k) = [] := by
  rw [List.filter_eq_nil_iff]
  intro p hp
  have := h p.1 (List.mem_map_of_mem Prod.fst hp)
  simp [this]

theorem interFrom_cons_lt (a : ℕ) (r : DrillRow)
    (rest : List (ℕ × DrillRow)) :
    ∀ (l : List DrillRow) (k : ℕ), a < k →
      interFrom ((a, r) :: rest) k l = interFrom rest k l := by
  intro l
  induction l with
  | nil => intro k _; rfl
  | cons x xs ih =>
    intro k hak
    unfold interFrom
    rw [List.filter_cons]
    have hd : (decide ((a, r).1 = k)) = false :=
      decide_eq_false (by omega)
    rw [hd]
    simp only [Bool.false_eq_true, if_false]
    rw [ih (k+1) (by omega)]

theorem insertAt_cons_succ (x : DrillRow) (t : List DrillRow) (p : ℕ)
    (r : DrillRow) : insertAt (x :: t) (p + 1) r = x :: insertAt t p r := by
  unfold insertAt
  rw [List.take_succ_cons, List.drop_succ_cons]
  rfl

theorem insertAt_interFrom (a : ℕ) (r : DrillRow)
    (rest : List (ℕ × DrillRow))
    (hgt : ∀ b ∈ rest.map Prod.fst, a < b) :
    ∀ (l : List DrillRow) (k : ℕ), k ≤ a → a < k + l.length →
      insertAt (interFrom rest k l) (a + 1 - k) r
        = interFrom ((a, r) :: rest) k l := by
  intro l
  induction l with
  | nil =>
    intro k hka hak
    simp only [List.length_nil] at hak
    omega
  | cons x xs ih =>
    intro k hka hak
    have hfil : rest.filter (fun p => p.1 = k) = [] := by
      apply filter_anchor_eq_nil
      intro b hb
      have := hgt b hb
      omega
    by_cases heq : k = a
    · subst heq
      have h1 : k + 1 - k = 1 := by omega
      rw [h1]
      conv_lhs =>
        rw [show interFrom rest k (x :: xs)
          = x :: ((rest.filter (fun p => p.1 = k)).map Prod.snd
            ++ interFrom rest (k+1) xs) from rfl]
      rw [hfil, List.map_nil, List.nil_append]
      rw [show insertAt (x :: interFrom rest (k+1) xs) 1 r
        = x :: r :: interFrom rest (k+1) xs from rfl]
      conv_rhs =>
        rw [show interFrom ((k, r) :: rest) k (x :: xs)
          = x :: ((((k, r) :: rest).filter (fun p => p.1 = k)).map Prod.snd
            ++ interFrom ((k, r) :: rest) (k+1) xs) from rfl]
      rw [List.filter_cons]
      have hd : (decide (((k, r) : ℕ × DrillRow).1 = k)) = true :=
        decide_eq_true rfl
      rw [hd]
      simp only [if_true]
      rw [hfil, interFrom_cons_lt k r rest xs (k+1) (by omega)]
      rfl
    · have hka' : k < a := by omega
      have hfil2 : ((a, r) :: rest).filter (fun p => p.1 = k) = [] := by
        apply filter_anchor_eq_nil
        intro b hb
        rw [List.map_cons, List.mem_cons] at hb
        rcases hb with hb | hb
        · omega
        · have := hgt b hb; omega
      have hsub : a + 1 - k = (a - k) + 1 := by omega
      rw [hsub]
      conv_lhs =>
        rw [show interFrom rest k (x :: xs)
          = x :: ((rest.filter (fun p => p.1 = k)).map Prod.snd
            ++ interFrom rest (k+1) xs) from rfl]
      rw [hfil, List.map_nil, List.nil_append]
      rw [insertAt_cons_succ]
      have hrec : a - k = a + 1 - (k + 1) := by omega
      rw [hrec]
      rw [ih (k+1) (by omega) (by
        simp only [List.length_cons] at hak
        omega)]
      conv_rhs =>
        rw [show interFrom ((a, r) :: rest) k (x :: xs)
          = x :: ((((a, r) :: rest).filter (fun p => p.1 = k)).map Prod.snd
            ++ interFrom ((a, r) :: rest) (k+1) xs) from rfl]
      rw [hfil2, List.map_nil, List.nil_append]

theorem foldr_insert_eq_interFrom :
    ∀ (ins : List (ℕ × DrillRow)) (l : List DrillRow),
      ((ins.map Prod.fst).Pairwise (· < ·)) →
      (∀ a ∈ ins.map Prod.fst, a < l.length) →
      ins.foldr (fun p acc => insertAt acc (p.1 + 1) p.2) l
        = interFrom ins 0 l := by
  intro ins
  induction ins with
  | nil =>
    intro l _ _
    exact (interFrom_nil_ins 0 l).symm
  | cons x xs ih =>
    intro l hpw hbd
    rw [List.map_cons, List.pairwise_cons] at hpw
    simp only [List.foldr_cons]
    rw [ih l hpw.2 fun a ha => hbd a (List.mem_cons_of_mem _ ha)]
    have hx := insertAt_interFrom x.1 x.2 xs hpw.1 l 0
      (Nat.zero_le x.1)
      (by
        have := hbd x.1 (List.mem_cons_self _ _)
        omega)
    rw [Nat.sub_zero] at hx
    exact hx

theorem applyInserts_eq_interleaved (l : List DrillRow)
    (ins : List (ℕ × DrillRow))
    (hpw : (ins.map Prod.fst).Pairwise (· < ·))
    (hbd : ∀ a ∈ ins.map Prod.fst, a < l.length) :
    applyInserts l ins = interleaved l ins := by
  unfold applyInserts interleaved
  rw [sortDescBy_eq_reverse ins hpw, List.foldl_reverse]
  exact foldr_insert_eq_interFrom ins l hpw hbd

/-- C8: each synthesized merged record is inserted immediately after
the last original row of its range, with all field overwrites applied
before any insertion and insertions applied in descending anchor order,
so the output equals the canonical interleaving in which every
synthesized record sits directly after its range's last (overwritten)
original row, also when several merges occur. -/
theorem c8_insertion_placement (input : List DrillRow) :
    processDrillingData input
      = interleaved (moddedRows input) (scanResult input).2 := by
  have hinv := scanLoop_anchor_invariant (prepRows input)
    (prepRows input).length 0 [] []
    (by simp) (by simp)
  have hlen : (moddedRows input).length = (prepRows input).length := by
    unfold moddedRows
    rw [foldl_applyMod_length]
  unfold processDrillingData
  apply applyInserts_eq_interleaved
  · exact hinv.1
  · intro a ha
    rw [hlen]
    exact hinv.2 a ha
